import Mathlib

/-!
Shallow embedding of `qiime/remote.py` (QIIME remote mapping-file loader).

Python-2 byte strings are modelled as `List Char`; `dict`-style row records
as association lists; exceptions as `Except`; the remote `gdata` client as a
record of abstract fetch operations.  Every definition mirrors the source
code line by line; spec-side reformulations are marked as such.
-/

set_option autoImplicit false

namespace QiimeRemote

/-- Python-2 strings are modelled as lists of characters. -/
abbrev Str := List Char

/-- Python's substring test `sub in s`. -/
def strContains (sub : Str) : Str → Bool
  | [] => sub.isPrefixOf []
  | c :: rest => sub.isPrefixOf (c :: rest) || strContains sub rest

/-- Python's `s.split(sep)` for a separator `sep` (left-to-right,
non-overlapping matches; a match makes the current chunk end and a new one
begin).  Python rejects an empty separator, so the guard keeps the scan
moving in that degenerate case. -/
def pySplit (sep : Str) : Str → List Str
  | [] => [[]]
  | c :: rest =>
    if h : sep.isPrefixOf (c :: rest) = true ∧ sep ≠ [] then
      [] :: pySplit sep ((c :: rest).drop sep.length)
    else
      match pySplit sep rest with
      | [] => [[c]]
      | chunk :: chunks => (c :: chunk) :: chunks
termination_by s => s.length
decreasing_by
  · have hlen : 0 < sep.length := List.length_pos.mpr h.2
    simp only [List.length_drop, List.length_cons]
    omega
  · simp

/-- Python's `lst[-1]` on the (never empty) result of `pySplit`. -/
def splitLast (sep s : Str) : Str := (pySplit sep s).getLastD []

/-- Python's `s.split(sep)[0]`. -/
def splitHead (sep s : Str) : Str := (pySplit sep s).headD []

/-- The literal separator `"key="`. -/
def keyEq : Str := ['k', 'e', 'y', '=']

/-- `_extract_spreadsheet_key_from_url` from `qiime/remote.py`:
if `'key=' in url` then `url.split('key=')[-1].split('#')[0].split('&')[0]`,
otherwise the url unchanged. -/
def _extract_spreadsheet_key_from_url (url : Str) : Str :=
  if strContains keyEq url then
    splitHead ['&'] (splitHead ['#'] (splitLast keyEq url))
  else url

/-- Modelled from the spec (§4.1): the portion of `s` after the last
(rightmost) occurrence of `"key="`, or `none` when there is no occurrence. -/
def afterLastKey : Str → Option Str
  | [] => none
  | c :: rest =>
    match afterLastKey rest with
    | some t => some t
    | none =>
      if keyEq.isPrefixOf (c :: rest) then some ((c :: rest).drop 4) else none

/-- Modelled from the spec (§4.1): truncate `s` at the first occurrence of
the character `c` (keep everything strictly before it). -/
def truncFirst (c : Char) (s : Str) : Str := s.takeWhile (fun x => x != c)

/-- The Key Extractor as the spec words it: everything after the last
`"key="`, truncated at the first `#` and then at the first `&`; the input
unchanged when `"key="` does not occur. -/
def extract_key_spec (s : Str) : Str :=
  match afterLastKey s with
  | some t => truncFirst '&' (truncFirst '#' t)
  | none => s

theorem isPrefixOf_iff_append (p s : Str) :
    p.isPrefixOf s = true ↔ ∃ r, s = p ++ r := by
  induction p generalizing s with
  | nil =>
    simp [List.isPrefixOf]
  | cons a as ih =>
    cases s with
    | nil =>
      simp [List.isPrefixOf]
    | cons b bs =>
      simp only [List.isPrefixOf, Bool.and_eq_true, beq_iff_eq, ih,
        List.cons_append]
      constructor
      · rintro ⟨rfl, r, rfl⟩
        exact ⟨r, rfl⟩
      · rintro ⟨r, heq⟩
        cases heq
        exact ⟨rfl, r, rfl⟩

theorem pySplit_ne_nil (sep s : Str) : pySplit sep s ≠ [] := by
  cases s with
  | nil => simp [pySplit]
  | cons c rest =>
    rw [pySplit]
    split
    · simp
    · split <;> simp_all

theorem getLastD_irrel {α : Type} (l : List α) (a b : α) (h : l ≠ []) :
    l.getLastD a = l.getLastD b := by
  cases l with
  | nil => exact absurd rfl h
  | cons x xs => rfl

/-- A string with no occurrence of `sep` splits into a single chunk. -/
theorem pySplit_of_not_contains (sep s : Str) (h : strContains sep s = false) :
    pySplit sep s = [s] := by
  induction s with
  | nil =>
    rw [pySplit]
  | cons c rest ih =>
    rw [strContains, Bool.or_eq_false_iff] at h
    rw [pySplit]
    rw [dif_neg (by simp [h.1])]
    rw [ih h.2]

/-- A string containing `sep` splits into at least two chunks. -/
theorem pySplit_length_of_contains (sep s : Str) (hsep : sep ≠ [])
    (h : strContains sep s = true) : 2 ≤ (pySplit sep s).length := by
  induction s with
  | nil =>
    rw [strContains, isPrefixOf_iff_append] at h
    obtain ⟨r, hr⟩ := h
    exact absurd (List.append_eq_nil.mp hr.symm).1 hsep
  | cons c rest ih =>
    rw [strContains, Bool.or_eq_true] at h
    rw [pySplit]
    rcases h with h | h
    · rw [dif_pos ⟨h, hsep⟩]
      have := pySplit_ne_nil sep ((c :: rest).drop sep.length)
      simp only [List.length_cons]
      have : 1 ≤ (pySplit sep ((c :: rest).drop sep.length)).length :=
        List.length_pos.mpr this
      omega
    · split
      · have := pySplit_ne_nil sep ((c :: rest).drop sep.length)
        simp only [List.length_cons]
        have : 1 ≤ (pySplit sep ((c :: rest).drop sep.length)).length :=
          List.length_pos.mpr this
        omega
      · have h2 := ih h
        split
        · next heq => exact absurd heq (pySplit_ne_nil sep rest)
        · next chunk chunks heq =>
          rw [heq] at h2
          simp only [List.length_cons] at h2 ⊢
          omega

theorem afterLastKey_eq_none_iff (s : Str) :
    afterLastKey s = none ↔ strContains keyEq s = false := by
  induction s with
  | nil =>
    simp [afterLastKey, strContains, keyEq, List.isPrefixOf]
  | cons c rest ih =>
    cases hrest : afterLastKey rest with
    | some t =>
      have h1 : strContains keyEq rest = true := by
        cases hb : strContains keyEq rest with
        | true => rfl
        | false =>
          rw [ih.mpr hb] at hrest
          exact Option.noConfusion hrest
      simp only [afterLastKey, hrest, strContains, Bool.or_eq_false_iff]
      simp [h1]
    | none =>
      have h1 : strContains keyEq rest = false := ih.mp hrest
      simp only [afterLastKey, hrest, strContains, Bool.or_eq_false_iff]
      cases hp : keyEq.isPrefixOf (c :: rest) with
      | true => simp [hp]
      | false => simp [hp, h1]

theorem strContains_append_left (sep a b : Str)
    (h : strContains sep a = true) : strContains sep (a ++ b) = true := by
  induction a with
  | nil =>
    rw [strContains] at h
    rw [isPrefixOf_iff_append] at h
    obtain ⟨r, hr⟩ := h
    rcases List.append_eq_nil.mp hr.symm with ⟨rfl, rfl⟩
    cases b with
    | nil => simpa [strContains, List.isPrefixOf]
    | cons x xs => simp [strContains, List.isPrefixOf]
  | cons c rest ih =>
    rw [strContains, Bool.or_eq_true] at h
    rw [List.cons_append, strContains, Bool.or_eq_true]
    rcases h with h | h
    · left
      rw [isPrefixOf_iff_append] at h ⊢
      obtain ⟨r, hr⟩ := h
      refine ⟨r ++ b, ?_⟩
      have hstep : c :: (rest ++ b) = (c :: rest) ++ b := rfl
      rw [hstep, hr, List.append_assoc]
    · right
      exact ih h

/-- Containment is preserved under appending on the left, stated for drops:
if a suffix of `s` contains `sep`, so does `s`. -/
theorem strContains_of_drop (sep s : Str) (n : Nat)
    (h : strContains sep (s.drop n) = true) : strContains sep s = true := by
  induction s generalizing n with
  | nil => simpa using h
  | cons c rest ih =>
    cases n with
    | zero => simpa using h
    | succ m =>
      rw [List.drop_succ_cons] at h
      rw [strContains, Bool.or_eq_true]
      exact Or.inr (ih m h)

/-- The suffix after the last `"key="` occurrence contains no further
occurrence of `"key="`. -/
theorem afterLastKey_no_key (s : Str) : ∀ t : Str,
    afterLastKey s = some t → strContains keyEq t = false := by
  induction s with
  | nil => exact fun t h => Option.noConfusion h
  | cons c rest ih =>
    intro t h
    cases hrest : afterLastKey rest with
    | some u =>
      simp only [afterLastKey, hrest] at h
      injection h with h
      subst h
      exact ih u hrest
    | none =>
      simp only [afterLastKey, hrest] at h
      cases hp : keyEq.isPrefixOf (c :: rest) with
      | false => simp [hp] at h
      | true =>
        simp only [hp, if_true] at h
        injection h with h
        subst h
        have hrc : strContains keyEq rest = false :=
          (afterLastKey_eq_none_iff rest).mp hrest
        cases hc : strContains keyEq ((c :: rest).drop 4) with
        | false => rfl
        | true =>
          have hdrop : (c :: rest).drop 4 = rest.drop 3 := rfl
          rw [hdrop] at hc
          rw [strContains_of_drop keyEq rest 3 hc] at hrc
          exact Bool.noConfusion hrc

theorem afterLastKey_cons_not_pre (c : Char) (rest : Str)
    (h : keyEq.isPrefixOf (c :: rest) = false) :
    afterLastKey (c :: rest) = afterLastKey rest := by
  cases hrest : afterLastKey rest with
  | some t => simp [afterLastKey, hrest]
  | none => simp [afterLastKey, hrest, h]

theorem afterLastKey_keyEq_append (r : Str) :
    afterLastKey (keyEq ++ r) = some ((afterLastKey r).getD r) := by
  have hke : ('k' == 'e') = false := by decide
  have hky : ('k' == 'y') = false := by decide
  have hkq : ('k' == '=') = false := by decide
  have h1 : afterLastKey ('e' :: 'y' :: '=' :: r) = afterLastKey r := by
    rw [afterLastKey_cons_not_pre 'e' _ (by simp [keyEq, List.isPrefixOf, hke]),
      afterLastKey_cons_not_pre 'y' _ (by simp [keyEq, List.isPrefixOf, hky]),
      afterLastKey_cons_not_pre '=' _ (by simp [keyEq, List.isPrefixOf, hkq])]
  have hpre : keyEq.isPrefixOf ('k' :: 'e' :: 'y' :: '=' :: r) = true :=
    (isPrefixOf_iff_append keyEq (keyEq ++ r)).mpr ⟨r, rfl⟩
  show afterLastKey ('k' :: 'e' :: 'y' :: '=' :: r) = _
  cases hr : afterLastKey r with
  | some t =>
    have h2 : afterLastKey ('e' :: 'y' :: '=' :: r) = some t := by rw [h1, hr]
    rw [afterLastKey, h2]
    rfl
  | none =>
    have h2 : afterLastKey ('e' :: 'y' :: '=' :: r) = none := by rw [h1, hr]
    rw [afterLastKey, h2]
    show (if keyEq.isPrefixOf ('k' :: 'e' :: 'y' :: '=' :: r) = true then
      some (('k' :: 'e' :: 'y' :: '=' :: r).drop 4) else none) = _
    rw [if_pos hpre]
    rfl

theorem splitLast_eq_afterD_aux : ∀ n : Nat, ∀ s : Str, s.length ≤ n →
    splitLast keyEq s = (afterLastKey s).getD s := by
  intro n
  induction n with
  | zero =>
    intro s hs
    have hnil : s = [] := List.eq_nil_of_length_eq_zero (Nat.le_zero.mp hs)
    subst hnil
    simp [splitLast, pySplit, afterLastKey]
  | succ n ih =>
    intro s hs
    cases hp : keyEq.isPrefixOf s with
    | true =>
      obtain ⟨r, rfl⟩ := (isPrefixOf_iff_append keyEq s).mp hp
      have hr_len : r.length ≤ n := by
        simp only [List.length_append, keyEq, List.length_cons,
          List.length_nil] at hs
        omega
      have hkeq : keyEq ++ r = 'k' :: ('e' :: 'y' :: '=' :: r) := rfl
      have hdrop : ('k' :: ('e' :: 'y' :: '=' :: r)).drop keyEq.length = r := rfl
      rw [splitLast, hkeq, pySplit,
        dif_pos ⟨by rw [← hkeq]; exact hp, by simp [keyEq]⟩, hdrop,
        List.getLastD_cons, ← hkeq, afterLastKey_keyEq_append]
      have hlast : (pySplit keyEq r).getLastD [] = (afterLastKey r).getD r :=
        ih r hr_len
      rw [getLastD_irrel _ _ [] (pySplit_ne_nil keyEq r), hlast, Option.getD]
    | false =>
      cases s with
      | nil => simp [splitLast, pySplit, afterLastKey]
      | cons c rest =>
        rw [splitLast, pySplit, dif_neg (by simp [hp])]
        cases hps : pySplit keyEq rest with
        | nil => exact absurd hps (pySplit_ne_nil keyEq rest)
        | cons chunk chunks =>
          simp only
          rw [afterLastKey_cons_not_pre c rest hp]
          cases hrc : strContains keyEq rest with
          | false =>
            have h4 : pySplit keyEq rest = [rest] :=
              pySplit_of_not_contains keyEq rest hrc
            rw [hps] at h4
            injection h4 with h4a h4b
            rw [h4a, h4b, (afterLastKey_eq_none_iff rest).mpr hrc]
            rfl
          | true =>
            have h5 := pySplit_length_of_contains keyEq rest
              (by simp [keyEq]) hrc
            rw [hps] at h5
            have hchunks : chunks ≠ [] := by
              cases chunks with
              | nil => simp at h5
              | cons x xs => simp
            have ihr := ih rest (by
              simp only [List.length_cons] at hs
              omega)
            rw [splitLast, hps] at ihr
            cases hsome : afterLastKey rest with
            | none =>
              rw [(afterLastKey_eq_none_iff rest).mp hsome] at hrc
              exact Bool.noConfusion hrc
            | some t =>
              rw [hsome] at ihr
              rw [List.getLastD_cons, getLastD_irrel chunks (c :: chunk) chunk
                hchunks]
              have hx : chunks.getLastD chunk = (chunk :: chunks).getLastD [] :=
                (List.getLastD_cons _ _ _).symm
              rw [hx, ihr]
              rfl

theorem splitLast_eq_afterD (s : Str) :
    splitLast keyEq s = (afterLastKey s).getD s :=
  splitLast_eq_afterD_aux s.length s (Nat.le_refl _)

theorem splitHead_single (c : Char) (s : Str) :
    splitHead [c] s = s.takeWhile (fun x => x != c) := by
  induction s with
  | nil =>
    rw [splitHead, pySplit]
    rfl
  | cons b rest ih =>
    rw [splitHead, pySplit]
    cases hcb : (c == b) with
    | true =>
      rw [dif_pos ⟨by simp [List.isPrefixOf, hcb], by simp⟩]
      have hb : b = c := (beq_iff_eq.mp hcb).symm
      subst hb
      simp [List.takeWhile]
    | false =>
      rw [dif_neg (by simp [List.isPrefixOf, hcb])]
      cases hps : pySplit [c] rest with
      | nil => exact absurd hps (pySplit_ne_nil [c] rest)
      | cons chunk chunks =>
        rw [splitHead, hps] at ih
        simp only [List.headD]
        have hbc : (b != c) = true := by
          simp only [bne_iff_ne, ne_eq]
          intro heq
          subst heq
          rw [beq_self_eq_true] at hcb
          exact Bool.noConfusion hcb
        rw [List.takeWhile]
        rw [hbc]
        simp only [List.headD] at ih
        rw [ih]

theorem extractKey_eq_spec (s : Str) :
    _extract_spreadsheet_key_from_url s = extract_key_spec s := by
  cases hc : strContains keyEq s with
  | false =>
    rw [_extract_spreadsheet_key_from_url, extract_key_spec,
      if_neg (by simp [hc]), (afterLastKey_eq_none_iff s).mpr hc]
  | true =>
    cases ha : afterLastKey s with
    | none =>
      rw [(afterLastKey_eq_none_iff s).mp ha] at hc
      exact Bool.noConfusion hc
    | some t =>
      have hgl : splitLast keyEq s = t := by
        rw [splitLast_eq_afterD s, ha]
        rfl
      rw [_extract_spreadsheet_key_from_url, extract_key_spec, if_pos hc, ha,
        hgl, splitHead_single, splitHead_single]
      rfl

/-- C5: for every input string, if the string contains the substring
`"key="`, `_extract_spreadsheet_key_from_url` returns the portion after the
last occurrence of `"key="`, truncated at the first `#` and then at the
first `&` (in that order); otherwise it returns the input string unchanged.
This is exactly the spec-side function `extract_key_spec`. -/
theorem C5_extract_key_matches_spec (s : Str) :
    _extract_spreadsheet_key_from_url s = extract_key_spec s :=
  extractKey_eq_spec s

theorem strContains_takeWhile (sep s : Str) (p : Char → Bool)
    (h : strContains sep s = false) :
    strContains sep (s.takeWhile p) = false := by
  cases hc : strContains sep (s.takeWhile p) with
  | false => rfl
  | true =>
    have hall := strContains_append_left sep (s.takeWhile p) (s.dropWhile p) hc
    rw [List.takeWhile_append_dropWhile] at hall
    rw [hall] at h
    exact Bool.noConfusion h

theorem extractKey_no_key (s : Str) :
    strContains keyEq (_extract_spreadsheet_key_from_url s) = false := by
  cases hc : strContains keyEq s with
  | false =>
    rw [_extract_spreadsheet_key_from_url, if_neg (by simp [hc])]
    exact hc
  | true =>
    rw [extractKey_eq_spec s, extract_key_spec]
    cases ha : afterLastKey s with
    | none =>
      rw [(afterLastKey_eq_none_iff s).mp ha] at hc
      exact Bool.noConfusion hc
    | some t =>
      show strContains keyEq (truncFirst '&' (truncFirst '#' t)) = false
      rw [truncFirst, truncFirst]
      exact strContains_takeWhile _ _ _
        (strContains_takeWhile _ _ _ (afterLastKey_no_key s t ha))

/-- C10: `_extract_spreadsheet_key_from_url` is idempotent; the result of a
single application never contains the substring `"key="`, so a second
application returns it unchanged. -/
theorem C10_extract_key_idempotent (s : Str) :
    strContains keyEq (_extract_spreadsheet_key_from_url s) = false ∧
    _extract_spreadsheet_key_from_url (_extract_spreadsheet_key_from_url s) =
      _extract_spreadsheet_key_from_url s := by
  have h1 := extractKey_no_key s
  refine ⟨h1, ?_⟩
  conv_lhs => rw [_extract_spreadsheet_key_from_url]
  rw [if_neg (by simp [h1])]

/-- Python's `s.replace(c, '')`: delete every occurrence of the character. -/
def removeChar (c : Char) (s : Str) : Str := s.filter (fun x => x != c)

/-- Python-2 `str.lower()` (ASCII-only lowering, as for byte strings). -/
def pyLower (s : Str) : Str := s.map Char.toLower

/-- The sanitization step of `_get_cleaned_headers`:
`header.lower().replace('_', '').replace(':', '').replace(' ', '').replace('#', '')`. -/
def sanitizeHeader (header : Str) : Str :=
  removeChar '#' (removeChar ' ' (removeChar ':' (removeChar '_' (pyLower header))))

/-- Decimal digits of `n`, most significant first (`fuel`-indexed so the
recursion is structural; `fuel = n` always suffices). -/
def toDecCore : Nat → Nat → Str
  | _, 0 => []
  | 0, _ + 1 => []
  | fuel + 1, n + 1 =>
    toDecCore fuel ((n + 1) / 10) ++ [Nat.digitChar ((n + 1) % 10)]

/-- Python's `'%d' % n` for a natural number. -/
def formatNat (n : Nat) : Str :=
  if n = 0 then ['0'] else toDecCore n n

/-- `header_count[k] += 1` on the `defaultdict(int)`. -/
def bumpCount (count : Str → Nat) (k : Str) : Str → Nat :=
  fun x => if x = k then count k + 1 else count x

/-- One emission of the deduplication loop: the sanitized header, suffixed
`'%s_%d'` when the same sanitized form was seen `n > 0` times before. -/
def emitHeader (b : Str) (n : Nat) : Str :=
  if n > 0 then b ++ '_' :: formatNat n else b

/-- The deduplication loop of `_get_cleaned_headers`. -/
def dedupHeaders (count : Str → Nat) : List Str → List Str
  | [] => []
  | ch :: rest =>
    emitHeader ch (count ch) :: dedupHeaders (bumpCount count ch) rest

/-- `_get_cleaned_headers` from `qiime/remote.py`: sanitize every header,
then deduplicate repeated sanitized forms with `_1`, `_2`, ... suffixes. -/
def _get_cleaned_headers (headers : List Str) : List Str :=
  dedupHeaders (fun _ => 0) (headers.map sanitizeHeader)

/-- The numeric value a decimal digit character stands for. -/
def decDigitVal (c : Char) : Nat := c.toNat - 48

/-- Parse a decimal digit string back to the natural number it denotes. -/
def evalDec (s : Str) : Nat := s.foldl (fun a c => 10 * a + decDigitVal c) 0

theorem evalDec_append_digit (s : Str) (c : Char) :
    evalDec (s ++ [c]) = 10 * evalDec s + decDigitVal c := by
  simp [evalDec, List.foldl_append]

theorem decDigitVal_digitChar (r : Nat) (h : r < 10) :
    decDigitVal (Nat.digitChar r) = r := by
  interval_cases r <;> decide

theorem evalDec_toDecCore : ∀ fuel n : Nat, n ≤ fuel →
    evalDec (toDecCore fuel n) = n := by
  intro fuel
  induction fuel with
  | zero =>
    intro n hn
    have : n = 0 := Nat.le_zero.mp hn
    subst this
    rfl
  | succ f ih =>
    intro n hn
    cases n with
    | zero => rfl
    | succ m =>
      have hdiv : (m + 1) / 10 ≤ f := by
        have := Nat.div_lt_self (Nat.succ_pos m) (by norm_num : 1 < 10)
        omega
      rw [toDecCore, evalDec_append_digit, ih _ hdiv,
        decDigitVal_digitChar _ (Nat.mod_lt _ (by norm_num))]
      omega

theorem evalDec_formatNat (n : Nat) : evalDec (formatNat n) = n := by
  rw [formatNat]
  by_cases hn : n = 0
  · subst hn
    rfl
  · rw [if_neg hn]
    exact evalDec_toDecCore n n (Nat.le_refl n)

theorem formatNat_inj (m n : Nat) (h : formatNat m = formatNat n) : m = n := by
  rw [← evalDec_formatNat m, ← evalDec_formatNat n, h]

theorem not_mem_removeChar (c : Char) (s : Str) : c ∉ removeChar c s := by
  intro hm
  have := (List.mem_filter.mp hm).2
  simp at this

theorem mem_of_mem_removeChar (c : Char) (s : Str) (x : Char)
    (h : x ∈ removeChar c s) : x ∈ s :=
  (List.mem_filter.mp h).1

theorem underscore_not_mem_sanitize (h : Str) : '_' ∉ sanitizeHeader h := by
  intro hm
  have h1 := mem_of_mem_removeChar _ _ _ hm
  have h2 := mem_of_mem_removeChar _ _ _ h1
  have h3 := mem_of_mem_removeChar _ _ _ h2
  exact not_mem_removeChar '_' (pyLower h) h3

theorem takeWhile_no_underscore (b d : Str) (hb : '_' ∉ b) :
    (b ++ '_' :: d).takeWhile (fun c => c != '_') = b := by
  induction b with
  | nil => simp
  | cons x xs ih =>
    have hx : (x != '_') = true := by
      simp only [bne_iff_ne, ne_eq]
      intro he
      exact hb (he ▸ List.mem_cons_self x xs)
    rw [List.cons_append, List.takeWhile_cons, hx]
    rw [ih (fun hm => hb (List.mem_cons_of_mem _ hm))]
    simp

theorem emitHeader_inj (b b' : Str) (n m : Nat)
    (hb : '_' ∉ b) (hb' : '_' ∉ b')
    (h : emitHeader b n = emitHeader b' m) : b = b' ∧ n = m := by
  rw [emitHeader, emitHeader] at h
  by_cases hn : n > 0 <;> by_cases hm : m > 0
  · rw [if_pos hn, if_pos hm] at h
    have hbb : b = b' := by
      have hw := congrArg (List.takeWhile (fun c => c != '_')) h
      rwa [takeWhile_no_underscore b _ hb, takeWhile_no_underscore b' _ hb']
        at hw
    subst hbb
    refine ⟨rfl, ?_⟩
    have hc := List.append_cancel_left h
    injection hc with _ h2
    exact formatNat_inj _ _ h2
  · rw [if_pos hn, if_neg hm] at h
    exact absurd (h ▸ List.mem_append_right b (List.mem_cons_self _ _)) hb'
  · rw [if_neg hn, if_pos hm] at h
    exact absurd (h.symm ▸ List.mem_append_right b' (List.mem_cons_self _ _)) hb
  · rw [if_neg hn, if_neg hm] at h
    exact ⟨h, by omega⟩

theorem dedupHeaders_shape : ∀ (l : List Str) (count : Str → Nat) (x : Str),
    x ∈ dedupHeaders count l →
    ∃ b n, b ∈ l ∧ count b ≤ n ∧ x = emitHeader b n := by
  intro l
  induction l with
  | nil =>
    intro count x hx
    simp [dedupHeaders] at hx
  | cons ch rest ih =>
    intro count x hx
    rw [dedupHeaders] at hx
    rcases List.mem_cons.mp hx with h | h
    · exact ⟨ch, count ch, List.mem_cons_self _ _, Nat.le_refl _, h⟩
    · obtain ⟨b, n, hbl, hcn, hxe⟩ := ih (bumpCount count ch) x h
      refine ⟨b, n, List.mem_cons_of_mem _ hbl, ?_, hxe⟩
      have hmono : count b ≤ bumpCount count ch b := by
        rw [bumpCount]
        by_cases hbc : b = ch
        · subst hbc
          rw [if_pos rfl]
          omega
        · rw [if_neg hbc]
      omega

theorem dedupHeaders_nodup : ∀ (l : List Str) (count : Str → Nat),
    (∀ b ∈ l, '_' ∉ b) → (dedupHeaders count l).Nodup := by
  intro l
  induction l with
  | nil =>
    intro count _
    simp [dedupHeaders]
  | cons ch rest ih =>
    intro count hfree
    rw [dedupHeaders]
    refine List.nodup_cons.mpr ⟨?_, ih _ fun b hb =>
      hfree b (List.mem_cons_of_mem _ hb)⟩
    intro hmem
    obtain ⟨b, n, hbl, hcn, hxe⟩ :=
      dedupHeaders_shape rest (bumpCount count ch) _ hmem
    obtain ⟨hbb, hnn⟩ := emitHeader_inj ch b (count ch) n
      (hfree ch (List.mem_cons_self _ _))
      (hfree b (List.mem_cons_of_mem _ hbl)) hxe
    subst hbb
    rw [bumpCount, if_pos rfl] at hcn
    omega

theorem dedupHeaders_length : ∀ (l : List Str) (count : Str → Nat),
    (dedupHeaders count l).length = l.length := by
  intro l
  induction l with
  | nil => intro count; rfl
  | cons ch rest ih =>
    intro count
    rw [dedupHeaders, List.length_cons, List.length_cons, ih]

/-- C1: for every sequence of header strings, `_get_cleaned_headers` returns
a sequence of the same length as its input, and all values in the returned
sequence are pairwise distinct. -/
theorem C1_cleaned_headers_length_and_distinct (headers : List Str) :
    (_get_cleaned_headers headers).length = headers.length ∧
    (_get_cleaned_headers headers).Nodup := by
  constructor
  · rw [_get_cleaned_headers, dedupHeaders_length, List.length_map]
  · exact dedupHeaders_nodup _ _ (fun b hb => by
      obtain ⟨h, _, rfl⟩ := List.mem_map.mp hb
      exact underscore_not_mem_sanitize h)

/-- C4: `_get_cleaned_headers` applied to
`["foo","Foo","FOO","F_oO","F:Oo_o","#Foo","f O O#"]` returns exactly
`["foo","foo_1","foo_2","foo_3","fooo","foo_4","foo_5"]`, and applied to
`["Fo#o","bar"]` returns exactly `["foo","bar"]`. -/
theorem C4_cleaned_headers_reference_vectors :
    _get_cleaned_headers ["foo".toList, "Foo".toList, "FOO".toList,
        "F_oO".toList, "F:Oo_o".toList, "#Foo".toList, "f O O#".toList] =
      ["foo".toList, "foo_1".toList, "foo_2".toList, "foo_3".toList,
        "fooo".toList, "foo_4".toList, "foo_5".toList] ∧
    _get_cleaned_headers ["Fo#o".toList, "bar".toList] =
      ["foo".toList, "bar".toList] := by
  constructor <;> rfl

/-- A row of the Google list feed: the `row.custom` dictionary, mapping a
cleaned header to the cell's text.  A missing key models the `KeyError`
case of the source. -/
abbrev Row := List (Str × Str)

/-- `row.custom[cleaned_header].text` (`none` models the `KeyError`). -/
def rowLookup (row : Row) (key : Str) : Option Str := List.lookup key row

/-- The characters Python-2 `str.lstrip()` removes. -/
def isPySpace (c : Char) : Bool :=
  c == ' ' || c == '\t' || c == '\n' || c == '\r' || c == '\x0b' || c == '\x0c'

/-- Python's `s.lstrip()`. -/
def lstrip (s : Str) : Str := s.dropWhile isPySpace

/-- `cell_data.lstrip().startswith('#')`. -/
def isCommentCell (s : Str) : Bool :=
  match lstrip s with
  | [] => false
  | c :: _ => c == '#'

/-- The `RemoteMappingFileError` hierarchy of `qiime/remote.py`; each raise
site's message is modelled by a structured payload carrying exactly the
values interpolated into that message. -/
inductive MappingError
  /-- `RemoteMappingFileConnectionError`: could not establish connection. -/
  | connectionError
  /-- the spreadsheet with this key does not have any worksheets -/
  | noWorksheets (spreadsheetKey : Str)
  /-- this worksheet name could not be found in the spreadsheet with this key -/
  | worksheetNotFound (worksheetName spreadsheetKey : Str)
  /-- could not load mapping file header; spreadsheet with this key empty? -/
  | emptyHeaders (spreadsheetKey : Str)
  /-- could not map this header to Google's internal representation -/
  | headerUnmappable (header : Str)
deriving DecidableEq

/-- Python `isinstance(e, RemoteMappingFileError)`: every error raised by
the module is an instance of the base class. -/
def isRemoteMappingFileError (_ : MappingError) : Bool := true

/-- Python `isinstance(e, RemoteMappingFileConnectionError)`. -/
def isConnectionError : MappingError → Bool
  | .connectionError => true
  | _ => false

/-- The inner column loop of `_export_mapping_file`: walk
`enumerate(zip(headers, cleaned_headers))` from index `idx` with the
`found_data` flag `found`, looking each cell up by its cleaned header.
Returns the line built for this row and the updated flag, or the
`KeyError`-triggered failure. -/
def buildLine (row : Row) : Nat → Bool → List (Str × Str) →
    Except MappingError (List Str × Bool)
  | _, found, [] => .ok ([], found)
  | idx, found, (header, cleanedHeader) :: rest =>
    match rowLookup row cleanedHeader with
    | none => .error (.headerUnmappable header)
    | some cellData =>
      if !found && idx == 0 && isCommentCell cellData then
        .ok ([cellData], found)
      else
        match buildLine row (idx + 1) true rest with
        | .error e => .error e
        | .ok (line, found2) => .ok (cellData :: line, found2)

/-- The row loop of `_export_mapping_file`, threading the `found_data` flag
across the rows of the feed. -/
def exportRows (pairs : List (Str × Str)) : Bool → List Row →
    Except MappingError (List (List Str))
  | _, [] => .ok []
  | found, row :: rows =>
    match buildLine row 0 found pairs with
    | .error e => .error e
    | .ok (line, found2) =>
      match exportRows pairs found2 rows with
      | .error e => .error e
      | .ok lines => .ok (line :: lines)

/-- `_export_mapping_file` from `qiime/remote.py`, for a single page of the
list feed (fetching a second page crashes on the unimported name
`SpreadsheetsListFeedFromString` at source line 216, so the single-page
path is the only behaviour the module has).  The headers row is prepended,
then each fetched row is rendered against
`zip(headers, _get_cleaned_headers(headers))` with `found_data`
initialized to `False`. -/
def _export_mapping_file (headers : List Str) (rows : List Row) :
    Except MappingError (List (List Str)) :=
  match exportRows (headers.zip (_get_cleaned_headers headers)) false rows with
  | .error e => .error e
  | .ok lines => .ok (headers :: lines)

/-- C2 fails on the code: the `found_data` flag is carried across rows, so
a row whose first cell starts with `#` is NOT compacted to a single cell
when an earlier row already contained data.  Here the second row's first
cell is the comment cell `"#c"`, yet its exported line keeps both cells. -/
theorem C2_counterexample :
    isCommentCell ['#', 'c'] = true ∧
    _export_mapping_file [['a'], ['b']]
        [[(['a'], ['x']), (['b'], ['y'])],
         [(['a'], ['#', 'c']), (['b'], ['z'])]] =
      .ok [[['a'], ['b']], [['x'], ['y']], [['#', 'c'], ['z']]] ∧
    [['#', 'c'], ['z']] ≠ ([['#', 'c']] : List Str) := by
  refine ⟨rfl, rfl, by decide⟩

theorem exportRows_comment_prefix (p0 : Str × Str) (pairs : List (Str × Str)) :
    ∀ (rows : List Row) (lines : List (List Str)) (i : Nat),
    exportRows (p0 :: pairs) false rows = .ok lines →
    (∀ j, j ≤ i → ∀ r, rows.get? j = some r →
      ∃ cell, rowLookup r p0.2 = some cell ∧ isCommentCell cell = true) →
    i < rows.length →
    ∃ cell r, rows.get? i = some r ∧ rowLookup r p0.2 = some cell ∧
      lines.get? i = some [cell] := by
  intro rows
  induction rows with
  | nil =>
    intro lines i _ _ hi
    exact absurd hi (by simp)
  | cons r rs ih =>
    intro lines i hok hcm hi
    obtain ⟨ph, pc⟩ := p0
    obtain ⟨cell0, hc0, hcc0⟩ := hcm 0 (Nat.zero_le i) r rfl
    have hc0' : rowLookup r pc = some cell0 := hc0
    have hbl : buildLine r 0 false ((ph, pc) :: pairs) =
        .ok ([cell0], false) := by
      rw [buildLine, hc0']
      simp [hcc0]
    cases hrs : exportRows ((ph, pc) :: pairs) false rs with
    | error e =>
      simp only [exportRows, hbl, hrs] at hok
      exact Except.noConfusion hok
    | ok lines2 =>
      simp only [exportRows, hbl, hrs] at hok
      injection hok with hok
      subst hok
      cases i with
      | zero => exact ⟨cell0, r, rfl, hc0', rfl⟩
      | succ i2 =>
        obtain ⟨cell, r2, hget, hlook, hline⟩ := ih lines2 i2 hrs
          (fun j hj r2 hr2 => hcm (j + 1) (Nat.succ_le_succ hj) r2 hr2)
          (by simp only [List.length_cons] at hi; omega)
        exact ⟨cell, r2, hget, hlook, hline⟩

/-- C2 (amended): comment compaction is gated by the cross-row `found_data`
flag, so it applies exactly to the initial run of comment rows of the feed:
if every row up to and including index `i` has a comment cell (first cell
starting, after `lstrip`, with `#`) under the first cleaned header, and the
export succeeds, then the exported line for row `i` (at position `i + 1`,
after the prepended header row) consists of that row's first cell only. -/
theorem C2_amended_comment_prefix_compacted
    (h0 : Str) (hrest : List Str) (rows : List Row)
    (table : List (List Str)) (i : Nat)
    (hok : _export_mapping_file (h0 :: hrest) rows = .ok table)
    (hcm : ∀ j, j ≤ i → ∀ r, rows.get? j = some r →
      ∃ cell, rowLookup r (sanitizeHeader h0) = some cell ∧
        isCommentCell cell = true)
    (hi : i < rows.length) :
    ∃ cell r, rows.get? i = some r ∧
      rowLookup r (sanitizeHeader h0) = some cell ∧
      table.get? (i + 1) = some [cell] := by
  have hzip : (h0 :: hrest).zip (_get_cleaned_headers (h0 :: hrest)) =
      (h0, sanitizeHeader h0) ::
        hrest.zip (dedupHeaders (bumpCount (fun _ => 0) (sanitizeHeader h0))
          (hrest.map sanitizeHeader)) := rfl
  rw [_export_mapping_file, hzip] at hok
  cases hrows : exportRows ((h0, sanitizeHeader h0) ::
      hrest.zip (dedupHeaders (bumpCount (fun _ => 0) (sanitizeHeader h0))
        (hrest.map sanitizeHeader))) false rows with
  | error e =>
    simp only [hrows] at hok
    exact Except.noConfusion hok
  | ok lines =>
    simp only [hrows] at hok
    injection hok with hok
    subst hok
    obtain ⟨cell, r, hget, hlook, hline⟩ :=
      exportRows_comment_prefix (h0, sanitizeHeader h0) _ rows lines i hrows
        hcm hi
    exact ⟨cell, r, hget, hlook, hline⟩

/-- Witness for the amended C2 at a concrete input: a single comment row
under a single header is compacted to its first cell. -/
theorem C2_amended_comment_prefix_compacted_witness :
    ∃ cell r, ([[(['a'], ['#', 'x'])]] : List Row).get? 0 = some r ∧
      rowLookup r (sanitizeHeader ['a']) = some cell ∧
      ([[['a']], [['#', 'x']]] : List (List Str)).get? (0 + 1) =
        some [cell] := by
  refine C2_amended_comment_prefix_compacted ['a'] [] _ _ 0 rfl ?_ (by decide)
  intro j hj r hr
  have hj0 : j = 0 := Nat.le_zero.mp hj
  subst hj0
  have hr0 : r = [(['a'], ['#', 'x'])] := by
    injection hr with hr
    exact hr.symm
  subst hr0
  exact ⟨['#', 'x'], rfl, rfl⟩

/-- C6 fails as stated: a comment-compacted row stops at its first cell and
never looks up the later headers, so a missing cell at a later position
raises nothing — the export succeeds.  Here the row has no cell under the
cleaned header `"b"` (position 1), yet the export returns a table. -/
theorem C6_counterexample :
    rowLookup [(['a'], ['#', 'c'])] ['b'] = none ∧
    _export_mapping_file [['a'], ['b']] [[(['a'], ['#', 'c'])]] =
      .ok [[['a'], ['b']], [['#', 'c']]] := ⟨rfl, rfl⟩

theorem buildLine_error_at (row : Row) :
    ∀ (pairs : List (Str × Str)) (idx : Nat) (found : Bool) (i : Nat)
      (hdr ch : Str),
    pairs.get? i = some (hdr, ch) →
    rowLookup row ch = none →
    (∀ j, j < i → ∀ pj, pairs.get? j = some pj →
      (rowLookup row pj.2).isSome = true) →
    (∀ p0, pairs.get? 0 = some p0 → ∀ cell, rowLookup row p0.2 = some cell →
      (!found && idx == 0 && isCommentCell cell) = false) →
    buildLine row idx found pairs = .error (.headerUnmappable hdr) := by
  intro pairs
  induction pairs with
  | nil =>
    intro idx found i hdr ch hget _ _ _
    exact absurd hget (by simp)
  | cons p rest ihp =>
    intro idx found i hdr ch hget hmiss hbef hnc
    obtain ⟨ph, pc⟩ := p
    cases i with
    | zero =>
      rw [List.get?_cons_zero] at hget
      injection hget with hget
      injection hget with h1 h2
      subst h1
      subst h2
      simp only [buildLine, hmiss]
    | succ i2 =>
      have h0 := hbef 0 (Nat.succ_pos i2) (ph, pc) rfl
      cases hc : rowLookup row pc with
      | none =>
        rw [hc] at h0
        exact Bool.noConfusion h0
      | some cell =>
        have hcond := hnc (ph, pc) rfl cell hc
        have hrec := ihp (idx + 1) true i2 hdr ch hget hmiss
          (fun j hj pj hpj => hbef (j + 1) (Nat.succ_lt_succ hj) pj hpj)
          (fun p0 _ cell0 _ => by simp)
        simp only [buildLine, hc, hcond, Bool.false_eq_true, if_false, hrec]

/-- The value of the `found_data` flag after the row loop has processed the
given rows starting from `found` (errors never advance it: the loop raises
before reaching the next row). -/
def exportFlag (pairs : List (Str × Str)) : Bool → List Row → Bool
  | found, [] => found
  | found, row :: rows =>
    match buildLine row 0 found pairs with
    | .error _ => found
    | .ok (_, found2) => exportFlag pairs found2 rows

/-- If the rows before `r` all export fine and `r`'s line build fails, the
whole row loop fails with that error, whatever rows follow. -/
theorem exportRows_error_after_prefix (pairs : List (Str × Str)) :
    ∀ (rs1 : List Row) (found : Bool) (lines1 : List (List Str)) (r : Row)
      (rs2 : List Row) (e : MappingError),
    exportRows pairs found rs1 = .ok lines1 →
    buildLine r 0 (exportFlag pairs found rs1) pairs = .error e →
    exportRows pairs found (rs1 ++ r :: rs2) = .error e := by
  intro rs1
  induction rs1 with
  | nil =>
    intro found lines1 r rs2 e _ hbl
    rw [exportFlag] at hbl
    rw [List.nil_append, exportRows]
    simp only [hbl]
  | cons row rows1 ih =>
    intro found lines1 r rs2 e hpre hbl
    cases hb0 : buildLine row 0 found pairs with
    | error e0 =>
      simp only [exportRows, hb0] at hpre
      exact Except.noConfusion hpre
    | ok lf =>
      obtain ⟨line0, found2⟩ := lf
      cases hrest : exportRows pairs found2 rows1 with
      | error e1 =>
        simp only [exportRows, hb0, hrest] at hpre
        exact Except.noConfusion hpre
      | ok linesrest =>
        have hflag : exportFlag pairs found (row :: rows1) =
            exportFlag pairs found2 rows1 := by
          simp only [exportFlag, hb0]
        rw [hflag] at hbl
        have hmain := ih found2 linesrest r rs2 e hrest hbl
        rw [List.cons_append]
        simp only [exportRows, hb0, hmain]

/-- C6 (amended): during export, every reached row's positions are
processed left to right and the first failing lookup raises
`RemoteMappingFileError` naming the original header at that position,
immediately — the rest of the feed is irrelevant and no table is returned.
Here the failing row `r` sits after an arbitrary successfully exported
prefix `rs1` and before arbitrary further rows `rs2`.  The one exception
forced by the counterexample: a row short-circuited by the comment rule
(first cell a comment while `found_data` is still false on entering the
row) only ever looks up position 0, so that case is excluded. -/
theorem C6_amended_missing_cell_fails
    (headers : List Str) (rs1 : List Row) (r : Row) (rs2 : List Row)
    (lines1 : List (List Str)) (i : Nat) (hdr ch : Str)
    (hpre : exportRows (headers.zip (_get_cleaned_headers headers)) false
      rs1 = .ok lines1)
    (hget : (headers.zip (_get_cleaned_headers headers)).get? i =
      some (hdr, ch))
    (hmiss : rowLookup r ch = none)
    (hbef : ∀ j, j < i → ∀ pj,
      (headers.zip (_get_cleaned_headers headers)).get? j = some pj →
      (rowLookup r pj.2).isSome = true)
    (hnc : ∀ p0, (headers.zip (_get_cleaned_headers headers)).get? 0 =
      some p0 → ∀ cell, rowLookup r p0.2 = some cell →
      exportFlag (headers.zip (_get_cleaned_headers headers)) false rs1 =
        false →
      isCommentCell cell = false) :
    _export_mapping_file headers (rs1 ++ r :: rs2) =
      .error (.headerUnmappable hdr) := by
  have hcond : ∀ p0,
      (headers.zip (_get_cleaned_headers headers)).get? 0 = some p0 →
      ∀ cell, rowLookup r p0.2 = some cell →
      (!(exportFlag (headers.zip (_get_cleaned_headers headers)) false rs1)
        && ((0 : Nat) == 0) && isCommentCell cell) = false := by
    intro p0 h0 cell hcell
    cases hf : exportFlag (headers.zip (_get_cleaned_headers headers))
        false rs1 with
    | true => simp
    | false => simp [hnc p0 h0 cell hcell hf]
  have hbl := buildLine_error_at r
    (headers.zip (_get_cleaned_headers headers)) 0
    (exportFlag (headers.zip (_get_cleaned_headers headers)) false rs1)
    i hdr ch hget hmiss hbef hcond
  have hrows := exportRows_error_after_prefix
    (headers.zip (_get_cleaned_headers headers)) rs1 false lines1 r rs2
    (.headerUnmappable hdr) hpre hbl
  rw [_export_mapping_file]
  simp only [hrows]

/-- Witness for the amended C6 at a concrete input: the first row exports
fine (setting `found_data`), the second row lacks a cell under the second
cleaned header `"b"`, and the export fails naming the original header
`"b"`. -/
theorem C6_amended_missing_cell_fails_witness :
    _export_mapping_file [['a'], ['b']]
        [[(['a'], ['d']), (['b'], ['e'])], [(['a'], ['x'])]] =
      .error (.headerUnmappable ['b']) := by
  refine C6_amended_missing_cell_fails [['a'], ['b']]
    [[(['a'], ['d']), (['b'], ['e'])]] [(['a'], ['x'])] []
    [[['d'], ['e']]] 1 ['b'] ['b'] rfl rfl rfl ?_ ?_
  · intro j hj pj hpj
    have hj0 : j = 0 := by omega
    subst hj0
    have hpj0 : pj = (['a'], ['a']) := by
      injection hpj with hpj
      exact hpj.symm
    subst hpj0
    rfl
  · intro p0 h0 cell hcell hf
    have hp0 : p0 = (['a'], ['a']) := by
      injection h0 with h0
      exact h0.symm
    subst hp0
    have hcx : cell = ['x'] := by
      injection hcell with hcell
      exact hcell.symm
    subst hcx
    rfl


/-- Does `csv.writer` (dialect `delimiter='\t'`, `lineterminator='\n'`,
default `quotechar='"'`, `QUOTE_MINIMAL`) quote this field?  A field is
quoted when it contains the delimiter, the quote character, or a character
of the line terminator. -/
def needsQuote (cell : Str) : Bool :=
  cell.any (fun c => c == '\t' || c == '"' || c == '\n')

/-- Quote a field: wrap in `"` and double every embedded `"`. -/
def quoteField (cell : Str) : Str :=
  '"' :: (cell.flatMap (fun c => if c == '"' then ['"', '"'] else [c])) ++ ['"']

/-- Render one field under `QUOTE_MINIMAL`. -/
def writeField (cell : Str) : Str :=
  if needsQuote cell then quoteField cell else cell

/-- Join fields with the `'\t'` delimiter. -/
def tabJoin : List Str → Str
  | [] => []
  | [cell] => cell
  | cell :: rest => cell ++ '\t' :: tabJoin rest

/-- `csv.writer.writerow`: tab-join the rendered fields and terminate with
`'\n'`; a row consisting of exactly one empty field is written `""` so the
record is not confused with an empty line. -/
def writeRow (row : List Str) : Str :=
  (if row = [[]] then ['"', '"'] else tabJoin (row.map writeField)) ++ ['\n']

/-- `tsv_writer.writerows(mapping_lines)` — the Serializer of the module
(source lines 105 to 108). -/
def writerows (table : List (List Str)) : Str :=
  (table.map writeRow).flatten

/-- Modelled from the spec (section 4.5): the claimed rendering — tab-joined
fields, each row newline-terminated, cells passed through verbatim. -/
def naiveSerialize (table : List (List Str)) : Str :=
  (table.map (fun row => tabJoin row ++ ['\n'])).flatten

/-- C3 fails on the code: `csv.writer` under `QUOTE_MINIMAL` quotes a field
containing the delimiter or the quote character, so cell contents are not
passed through unquoted.  For the table whose single cell is the string
a-tab-quote-b, the output is that cell quoted with the embedded quote
doubled, plus newline: the cell value does not appear verbatim in the
output, which also differs from the tab-joined verbatim rendering. -/
theorem C3_counterexample :
    writerows [[['a', '\t', '"', 'b']]] =
      ['"', 'a', '\t', '"', '"', 'b', '"', '\n'] ∧
    strContains ['a', '\t', '"', 'b'] (writerows [[['a', '\t', '"', 'b']]]) =
      false ∧
    writerows [[['a', '\t', '"', 'b']]] ≠ ['a', '\t', '"', 'b', '\n'] := by
  refine ⟨rfl, by decide, by decide⟩

theorem map_writeField_clean (row : List Str)
    (h : ∀ cell ∈ row, needsQuote cell = false) :
    row.map writeField = row := by
  induction row with
  | nil => rfl
  | cons c cs ih =>
    rw [List.map_cons, writeField,
      if_neg (by simp [h c (List.mem_cons_self _ _)]),
      ih (fun cell hc => h cell (List.mem_cons_of_mem _ hc))]

/-- On a table with no quote-triggering characters and no single-empty-cell
row, the csv writer coincides with the naive verbatim rendering. -/
theorem writerows_clean_eq_naive (table : List (List Str))
    (hclean : ∀ row ∈ table, ∀ cell ∈ row, needsQuote cell = false)
    (hrow : ∀ row ∈ table, row ≠ [[]]) :
    writerows table = naiveSerialize table := by
  induction table with
  | nil => rfl
  | cons row rest ih =>
    rw [writerows, naiveSerialize, List.map_cons, List.map_cons,
      List.flatten_cons, List.flatten_cons, writeRow,
      if_neg (hrow row (List.mem_cons_self _ _)),
      map_writeField_clean row (hclean row (List.mem_cons_self _ _))]
    have ih2 := ih (fun r hr => hclean r (List.mem_cons_of_mem _ hr))
      (fun r hr => hrow r (List.mem_cons_of_mem _ hr))
    rw [writerows, naiveSerialize] at ih2
    rw [ih2]

/-- C3 (amended): the serializer renders tab-delimited fields with a `'\n'`
line terminator, one line per row and no extra trailing blank line, but
follows CSV minimal quoting instead of passing every cell through verbatim:
a cell containing a tab, a double quote, or a newline is wrapped in double
quotes with embedded quotes doubled (and a lone empty cell is quoted).
Cells free of those characters are rendered verbatim: on every table
without quote-triggering cells and without single-empty-cell rows the
output is exactly the tab-joined, newline-terminated rendering. -/
theorem C3_amended_serializer_minimal_quoting (table : List (List Str))
    (hclean : ∀ row ∈ table, ∀ cell ∈ row, needsQuote cell = false)
    (hrow : ∀ row ∈ table, row ≠ [[]]) :
    writerows table = naiveSerialize table :=
  writerows_clean_eq_naive table hclean hrow

/-- Witness for the amended C3 at a concrete table. -/
theorem C3_amended_serializer_minimal_quoting_witness :
    writerows [[['h', '1'], ['h', '2']], [['a'], ['b']]] =
      naiveSerialize [[['h', '1'], ['h', '2']], [['a'], ['b']]] :=
  C3_amended_serializer_minimal_quoting _ (by decide) (by decide)

/-- Modelled from the spec (section 8): the trivial splitter used for the
round-trip check — split a string on a single character. -/
def splitChar (c : Char) : Str → List Str
  | [] => [[]]
  | x :: rest =>
    if x == c then [] :: splitChar c rest
    else
      match splitChar c rest with
      | [] => [[x]]
      | chunk :: chunks => (x :: chunk) :: chunks

/-- Modelled from the spec (section 8): re-split the serialized output on
line terminators (dropping the final empty chunk the terminating newline
produces) and then each line on tabs. -/
def parseTSV (s : Str) : List (List Str) :=
  ((splitChar '\n' s).dropLast).map (fun line => splitChar '\t' line)

theorem splitChar_not_mem (c : Char) (s : Str)
    (h : ∀ x ∈ s, (x == c) = false) : splitChar c s = [s] := by
  induction s with
  | nil => rfl
  | cons x rest ih =>
    rw [splitChar, if_neg (by simp [h x (List.mem_cons_self _ _)]),
      ih (fun y hy => h y (List.mem_cons_of_mem _ hy))]

theorem splitChar_append (c : Char) (s t : Str)
    (h : ∀ x ∈ s, (x == c) = false) :
    splitChar c (s ++ c :: t) = s :: splitChar c t := by
  induction s with
  | nil =>
    rw [List.nil_append, splitChar, if_pos (by simp)]
  | cons x xs ih =>
    rw [List.cons_append, splitChar,
      if_neg (by simp [h x (List.mem_cons_self _ _)]),
      ih (fun y hy => h y (List.mem_cons_of_mem _ hy))]

theorem clean_cell_chars (cell : Str) (hc : needsQuote cell = false) :
    ∀ x ∈ cell, (x == '\t') = false ∧ (x == '"') = false ∧
      (x == '\n') = false := by
  intro x hx
  cases hpx : (x == '\t' || x == '"' || x == '\n') with
  | true =>
    exfalso
    have hone : cell.any (fun ch => ch == '\t' || ch == '"' || ch == '\n') =
        true := List.any_eq_true.mpr ⟨x, hx, hpx⟩
    rw [needsQuote, hone] at hc
    exact Bool.noConfusion hc
  | false =>
    rw [Bool.or_eq_false_iff, Bool.or_eq_false_iff] at hpx
    exact ⟨hpx.1.1, hpx.1.2, hpx.2⟩

theorem mem_tabJoin (row : List Str) (x : Char) (hx : x ∈ tabJoin row) :
    x = '\t' ∨ ∃ cell ∈ row, x ∈ cell := by
  induction row with
  | nil => simp [tabJoin] at hx
  | cons cell rest ih =>
    cases rest with
    | nil =>
      rw [tabJoin] at hx
      exact Or.inr ⟨cell, List.mem_cons_self _ _, hx⟩
    | cons c2 r2 =>
      rw [show tabJoin (cell :: c2 :: r2) =
        cell ++ '\t' :: tabJoin (c2 :: r2) from rfl] at hx
      rcases List.mem_append.mp hx with h | h
      · exact Or.inr ⟨cell, List.mem_cons_self _ _, h⟩
      · rcases List.mem_cons.mp h with h | h
        · exact Or.inl h
        · rcases ih h with h | ⟨cl, hcl, hxc⟩
          · exact Or.inl h
          · exact Or.inr ⟨cl, List.mem_cons_of_mem _ hcl, hxc⟩

theorem splitChar_tabJoin (row : List Str) (hne : row ≠ [])
    (h : ∀ cell ∈ row, ∀ x ∈ cell, (x == '\t') = false) :
    splitChar '\t' (tabJoin row) = row := by
  induction row with
  | nil => exact absurd rfl hne
  | cons cell rest ih =>
    cases rest with
    | nil =>
      rw [tabJoin]
      exact splitChar_not_mem '\t' cell (h cell (List.mem_cons_self _ _))
    | cons c2 r2 =>
      rw [show tabJoin (cell :: c2 :: r2) =
        cell ++ '\t' :: tabJoin (c2 :: r2) from rfl,
        splitChar_append '\t' cell _ (h cell (List.mem_cons_self _ _)),
        ih (by simp) (fun cl hcl => h cl (List.mem_cons_of_mem _ hcl))]

theorem splitChar_newline_naive (table : List (List Str))
    (h : ∀ row ∈ table, ∀ x ∈ tabJoin row, (x == '\n') = false) :
    splitChar '\n' (naiveSerialize table) =
      table.map (fun row => tabJoin row) ++ [[]] := by
  induction table with
  | nil => rfl
  | cons row rest ih =>
    have hstep : naiveSerialize (row :: rest) =
        tabJoin row ++ '\n' :: naiveSerialize rest := by
      rw [naiveSerialize, List.map_cons, List.flatten_cons, naiveSerialize]
      simp [List.append_assoc]
    rw [hstep, splitChar_append '\n' _ _ (h row (List.mem_cons_self _ _)),
      ih (fun r hr => h r (List.mem_cons_of_mem _ hr)), List.map_cons,
      List.cons_append]

theorem map_split_tabJoin (table : List (List Str))
    (hclean : ∀ row ∈ table, ∀ cell ∈ row, needsQuote cell = false)
    (hne : ∀ row ∈ table, row ≠ []) :
    (table.map (fun row => tabJoin row)).map (fun line => splitChar '\t' line)
      = table := by
  induction table with
  | nil => rfl
  | cons row rest ih =>
    rw [List.map_cons, List.map_cons,
      splitChar_tabJoin row (hne row (List.mem_cons_self _ _))
        (fun cell hcell x hx =>
          (clean_cell_chars cell
            (hclean row (List.mem_cons_self _ _) cell hcell) x hx).1),
      ih (fun r hr => hclean r (List.mem_cons_of_mem _ hr))
        (fun r hr => hne r (List.mem_cons_of_mem _ hr))]

/-- C8 fails on the code: a cell containing an embedded tab is quoted by
the serializer and then mis-split by the trivial TSV splitter, so the
round trip does not recover the original table. -/
theorem C8_counterexample :
    parseTSV (writerows [[['a', '\t', 'b']]]) = [[['"', 'a'], ['b', '"']]] ∧
    [[['"', 'a'], ['b', '"']]] ≠ [[['a', '\t', 'b']]] := ⟨rfl, by decide⟩

/-- C8 (amended): the round trip holds for tables whose cells avoid the
quote-triggering characters (tab, double quote, newline) and whose rows
are nonempty and not a single empty cell: serializing produces exactly the
tab-joined, newline-terminated lines of the input structure, and
re-splitting the output on line terminators and tabs recovers the original
header and rows. -/
theorem C8_amended_roundtrip (table : List (List Str))
    (hclean : ∀ row ∈ table, ∀ cell ∈ row, needsQuote cell = false)
    (hne : ∀ row ∈ table, row ≠ [])
    (hrow : ∀ row ∈ table, row ≠ [[]]) :
    writerows table = naiveSerialize table ∧
    parseTSV (writerows table) = table := by
  have heq := writerows_clean_eq_naive table hclean hrow
  refine ⟨heq, ?_⟩
  rw [heq, parseTSV]
  have hnl : ∀ row ∈ table, ∀ x ∈ tabJoin row, (x == '\n') = false := by
    intro row hr x hx
    rcases mem_tabJoin row x hx with h | ⟨cell, hcell, hxc⟩
    · subst h
      decide
    · exact (clean_cell_chars cell (hclean row hr cell hcell) x hxc).2.2
  rw [splitChar_newline_naive table hnl, List.dropLast_concat]
  exact map_split_tabJoin table hclean hne

/-- Witness for the amended C8 at a concrete table. -/
theorem C8_amended_roundtrip_witness :
    writerows [[['h']], [['a'], ['b']]] =
      naiveSerialize [[['h']], [['a'], ['b']]] ∧
    parseTSV (writerows [[['h']], [['a'], ['b']]]) =
      [[['h']], [['a'], ['b']]] :=
  C8_amended_roundtrip _ (by decide) (by decide) (by decide)

/-- One entry of the worksheets feed. -/
structure Worksheet where
  /-- `sheet.title.text` -/
  title : Str
  /-- `worksheet.id.text` (a URL whose last slash-separated component is
  the worksheet ID) -/
  idText : Str

/-- The abstract `gdata` `SpreadsheetsService` client: the three remote
fetches the orchestrator performs.  `getWorksheetsFeed` may fail with the
unit `socket.gaierror` (a name-resolution failure during the initial
connection); the two data fetches return the already-paginated contents of
their feeds, keyed by spreadsheet key and worksheet ID. -/
structure Client where
  /-- `GetWorksheetsFeed(spreadsheet_key, ...).entry`, or a raised
  `socket.gaierror` -/
  getWorksheetsFeed : Str → Except Unit (List Worksheet)
  /-- `_get_spreadsheet_headers(client, spreadsheet_key, worksheet_id)` -/
  getHeaders : Str → Str → List Str
  /-- `GetListFeed(spreadsheet_key, worksheet_id, ...).entry` -/
  getRows : Str → Str → List Row

/-- The worksheet search loop of the source (lines 72 to 74):
`for sheet in worksheets_feed.entry: if sheet.title.text == worksheet_name:
worksheet = sheet` — it does not stop at the first match, so the last
matching entry wins. -/
def findWorksheet (name : Str) (entries : List Worksheet) : Option Worksheet :=
  entries.foldl
    (fun acc sheet => if sheet.title == name then some sheet else acc) none

/-- `worksheet.id.text.split('/')[-1]`. -/
def worksheetId (ws : Worksheet) : Str := splitLast ['/'] ws.idText

/-- The tail of `load_google_spreadsheet_mapping_file` once a worksheet is
chosen (source lines 86 to 108): extract the worksheet ID, fetch the
headers (failing when they are empty), export the rows against them, and
serialize the mapping lines. -/
def _load_from_worksheet (client : Client) (spreadsheetKey : Str)
    (worksheet : Worksheet) : Except MappingError Str :=
  let wsId := worksheetId worksheet
  let headers := client.getHeaders spreadsheetKey wsId
  if headers.length < 1 then .error (.emptyHeaders spreadsheetKey)
  else
    match _export_mapping_file headers (client.getRows spreadsheetKey wsId) with
    | .error e => .error e
    | .ok mapping_lines => .ok (writerows mapping_lines)

/-- `load_google_spreadsheet_mapping_file` from `qiime/remote.py`: extract
the key, list the worksheets (translating `gaierror` into the connection
error), guard against an empty worksheet list, resolve the worksheet by
name (or take the first), then delegate to `_load_from_worksheet`. -/
def load_google_spreadsheet_mapping_file (client : Client)
    (spreadsheet_key : Str) (worksheet_name : Option Str) :
    Except MappingError Str :=
  let key := _extract_spreadsheet_key_from_url spreadsheet_key
  match client.getWorksheetsFeed key with
  | .error _ => .error .connectionError
  | .ok entries =>
    if entries.length < 1 then .error (.noWorksheets key)
    else
      match worksheet_name with
      | some name =>
        match findWorksheet name entries with
        | none => .error (.worksheetNotFound name key)
        | some worksheet => _load_from_worksheet client key worksheet
      | none =>
        match entries.head? with
        | none => .error (.noWorksheets key)
        | some worksheet => _load_from_worksheet client key worksheet

theorem getLast?_cons_ne_none {α : Type} (y : α) (ys : List α) :
    (y :: ys).getLast? ≠ none := by
  induction ys generalizing y with
  | nil => simp
  | cons z zs ih =>
    rw [List.getLast?_cons_cons]
    exact ih z

theorem findWorksheet_loop_eq (name : Str) :
    ∀ (entries : List Worksheet) (acc : Option Worksheet),
    entries.foldl
        (fun a sheet => if sheet.title == name then some sheet else a) acc =
      match (entries.filter (fun ws => ws.title == name)).getLast? with
      | some w => some w
      | none => acc := by
  intro entries
  induction entries with
  | nil => intro acc; rfl
  | cons w rest ih =>
    intro acc
    simp only [List.foldl_cons, List.filter_cons]
    by_cases hw : (w.title == name) = true
    · rw [if_pos hw, if_pos hw, ih (some w)]
      cases hfr : (rest.filter (fun ws => ws.title == name)) with
      | nil => rfl
      | cons y ys =>
        rw [List.getLast?_cons_cons]
        cases hgl : (y :: ys).getLast? with
        | none => exact absurd hgl (getLast?_cons_ne_none y ys)
        | some z => rfl
    · rw [if_neg hw, if_neg hw, ih acc]

theorem findWorksheet_eq_none (name : Str) (entries : List Worksheet)
    (h : ∀ ws ∈ entries, ws.title ≠ name) :
    findWorksheet name entries = none := by
  rw [findWorksheet, findWorksheet_loop_eq]
  have hfilter : entries.filter (fun ws => ws.title == name) = [] := by
    rw [List.filter_eq_nil_iff]
    intro ws hws
    simp [h ws hws]
  rw [hfilter]
  rfl

/-- C7: the orchestrator's error taxonomy: zero worksheets gives a
structural `RemoteMappingFileError` naming the (extracted) spreadsheet key;
an absent requested worksheet name gives a structural error naming both the
name and the key; an empty fetched header list gives a structural error
naming the key; and a name-resolution failure (`gaierror`) during the
initial connection is re-signaled as the distinct
`RemoteMappingFileConnectionError`, not a plain structural error. -/
theorem C7_orchestrator_error_taxonomy :
    (∀ (client : Client) (key : Str) (wn : Option Str),
      client.getWorksheetsFeed (_extract_spreadsheet_key_from_url key) =
        .ok [] →
      load_google_spreadsheet_mapping_file client key wn =
        .error (.noWorksheets (_extract_spreadsheet_key_from_url key)) ∧
      isConnectionError
        (.noWorksheets (_extract_spreadsheet_key_from_url key)) = false ∧
      isRemoteMappingFileError
        (.noWorksheets (_extract_spreadsheet_key_from_url key)) = true) ∧
    (∀ (client : Client) (key name : Str) (entries : List Worksheet),
      client.getWorksheetsFeed (_extract_spreadsheet_key_from_url key) =
        .ok entries →
      entries ≠ [] →
      (∀ ws ∈ entries, ws.title ≠ name) →
      load_google_spreadsheet_mapping_file client key (some name) =
        .error (.worksheetNotFound name
          (_extract_spreadsheet_key_from_url key)) ∧
      isConnectionError (.worksheetNotFound name
        (_extract_spreadsheet_key_from_url key)) = false ∧
      isRemoteMappingFileError (.worksheetNotFound name
        (_extract_spreadsheet_key_from_url key)) = true) ∧
    (∀ (client : Client) (key : Str) (w : Worksheet) (rest : List Worksheet),
      client.getWorksheetsFeed (_extract_spreadsheet_key_from_url key) =
        .ok (w :: rest) →
      client.getHeaders (_extract_spreadsheet_key_from_url key)
        (worksheetId w) = [] →
      load_google_spreadsheet_mapping_file client key none =
        .error (.emptyHeaders (_extract_spreadsheet_key_from_url key)) ∧
      isConnectionError
        (.emptyHeaders (_extract_spreadsheet_key_from_url key)) = false ∧
      isRemoteMappingFileError
        (.emptyHeaders (_extract_spreadsheet_key_from_url key)) = true) ∧
    (∀ (client : Client) (key : Str) (wn : Option Str),
      client.getWorksheetsFeed (_extract_spreadsheet_key_from_url key) =
        .error () →
      load_google_spreadsheet_mapping_file client key wn =
        .error .connectionError ∧
      isConnectionError .connectionError = true ∧
      isRemoteMappingFileError .connectionError = true) := by
  refine ⟨?_, ?_, ?_, ?_⟩
  · intro client key wn hfeed
    refine ⟨?_, rfl, rfl⟩
    rw [load_google_spreadsheet_mapping_file]
    simp only [hfeed]
    rfl
  · intro client key name entries hfeed hne hmiss
    refine ⟨?_, rfl, rfl⟩
    rw [load_google_spreadsheet_mapping_file]
    simp only [hfeed]
    rw [if_neg (by
      intro hlt
      exact hne (List.eq_nil_of_length_eq_zero (by omega)))]
    rw [findWorksheet_eq_none name entries hmiss]
  · intro client key w rest hfeed hheaders
    refine ⟨?_, rfl, rfl⟩
    rw [load_google_spreadsheet_mapping_file]
    simp only [hfeed]
    rw [if_neg (by simp)]
    simp only [List.head?]
    rw [_load_from_worksheet]
    simp only [hheaders]
    rfl
  · intro client key wn hfeed
    refine ⟨?_, rfl, rfl⟩
    rw [load_google_spreadsheet_mapping_file]
    simp only [hfeed]

/-- A worksheet used by the concrete witnesses. -/
def wsA : Worksheet := ⟨['n'], ['i', '1']⟩

/-- A second worksheet with the same title as `wsA` but a different ID. -/
def wsB : Worksheet := ⟨['n'], ['i', '2']⟩

/-- A client whose spreadsheet has no worksheets. -/
def emptyFeedClient : Client :=
  ⟨fun _ => .ok [], fun _ _ => [['h']], fun _ _ => []⟩

/-- A client whose initial connection raises `gaierror`. -/
def errFeedClient : Client :=
  ⟨fun _ => .error (), fun _ _ => [['h']], fun _ _ => []⟩

/-- A client with one worksheet and an empty header row. -/
def oneWsClient : Client :=
  ⟨fun _ => .ok [wsA], fun _ _ => [], fun _ _ => []⟩

/-- Witness for C7 at concrete clients: all four error paths observed. -/
theorem C7_orchestrator_error_taxonomy_witness :
    load_google_spreadsheet_mapping_file emptyFeedClient ['k'] none =
      .error (.noWorksheets ['k']) ∧
    load_google_spreadsheet_mapping_file oneWsClient ['k'] (some ['m']) =
      .error (.worksheetNotFound ['m'] ['k']) ∧
    load_google_spreadsheet_mapping_file oneWsClient ['k'] none =
      .error (.emptyHeaders ['k']) ∧
    load_google_spreadsheet_mapping_file errFeedClient ['k'] none =
      .error .connectionError := by
  refine ⟨(C7_orchestrator_error_taxonomy.1 emptyFeedClient ['k'] none
      rfl).1,
    (C7_orchestrator_error_taxonomy.2.1 oneWsClient ['k'] ['m'] [wsA] rfl
      (by simp) ?_).1,
    (C7_orchestrator_error_taxonomy.2.2.1 oneWsClient ['k'] wsA [] rfl
      rfl).1,
    (C7_orchestrator_error_taxonomy.2.2.2 errFeedClient ['k'] none rfl).1⟩
  intro ws hws
  have hws1 : ws = wsA := List.mem_singleton.mp hws
  subst hws1
  exact (by decide : wsA.title ≠ (['m'] : Str))

/-- C9: when `worksheet_name` is given and more than one worksheet entry
has a matching title, the search loop does not stop at the first match:
the last matching entry in feed order is selected, and the subsequent
header and row fetches use that worksheet's ID (they are exactly
`_load_from_worksheet` on it, which fetches with `worksheetId` of the
selected worksheet). -/
theorem C9_last_matching_worksheet_selected
    (client : Client) (key name : Str) (entries : List Worksheet)
    (w : Worksheet)
    (hfeed : client.getWorksheetsFeed
      (_extract_spreadsheet_key_from_url key) = .ok entries)
    (hne : entries ≠ [])
    (hlast : (entries.filter (fun ws => ws.title == name)).getLast? =
      some w) :
    load_google_spreadsheet_mapping_file client key (some name) =
      _load_from_worksheet client (_extract_spreadsheet_key_from_url key)
        w := by
  rw [load_google_spreadsheet_mapping_file]
  simp only [hfeed]
  rw [if_neg (by
    intro hlt
    exact hne (List.eq_nil_of_length_eq_zero (by omega)))]
  rw [findWorksheet, findWorksheet_loop_eq, hlast]

/-- Witness for C9: two worksheets share the title, the second one is
selected. -/
theorem C9_last_matching_worksheet_selected_witness :
    load_google_spreadsheet_mapping_file
      ⟨fun _ => .ok [wsA, wsB], fun _ _ => [['h']], fun _ _ => []⟩
      ['k'] (some ['n']) =
    _load_from_worksheet
      ⟨fun _ => .ok [wsA, wsB], fun _ _ => [['h']], fun _ _ => []⟩
      ['k'] wsB :=
  C9_last_matching_worksheet_selected _ ['k'] ['n'] [wsA, wsB] wsB rfl
    (by simp) rfl

end QiimeRemote
